import Mathlib

/-!
Verification development for the stock-auto-caption repository
(`models.py`, `exporters.py`).

Python strings are embedded as `List Char` (`PyStr`); Streamlit's
`st.session_state` is embedded as a partial map `PyStr → Option PyStr`
(`Store`).  The BLIP caption model and the KeyBERT keyword extractor are
external collaborators: they appear as parameters (`gen`, `extract`) of the
functions that call them.  All character-level primitives (`strip`,
`capitalize`, `split`, `join`, `os.path.splitext`) are translated from the
Python semantics restricted to ASCII text.
-/

set_option maxRecDepth 4000

/-- Python strings as lists of characters. -/
abbrev PyStr := List Char

/-- View a Lean string literal as a `PyStr`. -/
def lit (s : String) : PyStr := s.data

/-- ASCII whitespace recognised by Python's `str.strip()`. -/
def pyIsSpace (c : Char) : Bool :=
  c = ' ' || c = '\t' || c = '\n' || c = '\r' || c = '\x0b' || c = '\x0c'

/-- Python `str.strip()`: drop leading and trailing whitespace. -/
def pyStrip (s : PyStr) : PyStr :=
  (((s.dropWhile pyIsSpace).reverse).dropWhile pyIsSpace).reverse

/-- Python `str.capitalize()`: first character upper-cased, all remaining
characters lower-cased (ASCII). -/
def pyCapitalize : PyStr → PyStr
  | [] => []
  | c :: cs => c.toUpper :: cs.map Char.toLower

/-- `raw_caption.strip().capitalize()` — the normalisation step of
`ModelLoader.refine_caption_and_keywords` (models.py line 42). -/
def normalizeCaption (raw : PyStr) : PyStr := pyCapitalize (pyStrip raw)

/-- Modelled from the spec claim wording, for comparison with the code:
trim whitespace and convert only the first character to upper case, leaving
every other character of the trimmed string unchanged. -/
def normalizeCaptionSpec (s : PyStr) : PyStr :=
  match pyStrip s with
  | [] => []
  | c :: cs => c.toUpper :: cs

/-- Order-preserving deduplication keeping the first occurrence of every
element — the behaviour of Python's `list(dict.fromkeys(l))`. -/
def dedupFirst {α : Type} [DecidableEq α] : List α → List α
  | [] => []
  | x :: xs => x :: (dedupFirst xs).filter (fun y => y ≠ x)

/-- Python `", ".join(l)` (models.py line 64, exporters.py line 59). -/
def joinCommaSpace : List PyStr → PyStr
  | [] => []
  | [t] => t
  | t :: u :: ts => t ++ ',' :: ' ' :: joinCommaSpace (u :: ts)

/-- Python `",".join(l)` (exporters.py line 164). -/
def joinComma : List PyStr → PyStr
  | [] => []
  | [t] => t
  | t :: u :: ts => t ++ ',' :: joinComma (u :: ts)

/-- Accumulator-passing worker for `str.split(",")`. -/
def splitCommaAux : PyStr → PyStr → List PyStr
  | [], acc => [acc.reverse]
  | c :: cs, acc =>
      if c = ',' then acc.reverse :: splitCommaAux cs []
      else splitCommaAux cs (c :: acc)

/-- Python `s.split(",")`. -/
def pySplitComma (s : PyStr) : List PyStr := splitCommaAux s []

/-- `[k.strip() for k in s.split(",") if k.strip()]`
(exporters.py lines 56-57). -/
def cleanTokens (s : PyStr) : List PyStr :=
  ((pySplitComma s).map pyStrip).filter (fun t => t ≠ [])

/-- The seed-tag loop of `refine_caption_and_keywords`
(models.py lines 56-59): `if cat and cat.strip(): append(cat.strip())`. -/
def seedsClean (selected_categories : List PyStr) : List PyStr :=
  selected_categories.filterMap (fun cat =>
    if cat ≠ [] ∧ pyStrip cat ≠ [] then some (pyStrip cat) else none)

/-- The caption half of `refine_caption_and_keywords`
(models.py lines 42-44): normalise, then truncate to 147 chars + `"..."`
when longer than 150. -/
def clean_caption (raw_caption : PyStr) : PyStr :=
  let caption := normalizeCaption raw_caption
  if 150 < caption.length then caption.take 147 ++ lit "..." else caption

/-- `ModelLoader.refine_caption_and_keywords` (models.py lines 38-66).
The KeyBERT call `kw_model.extract_keywords` is the external parameter
`extract`; the code applies it to the cleaned caption. -/
def refine_caption_and_keywords (extract : PyStr → List PyStr)
    (raw_caption : PyStr) (selected_categories : List PyStr) :
    PyStr × PyStr :=
  let caption := clean_caption raw_caption
  let keyword_list := extract caption ++ seedsClean selected_categories
  let keyword_list := dedupFirst keyword_list
  (caption, joinCommaSpace keyword_list)

/-! ### Session state and marketplace keys -/

/-- Streamlit `st.session_state`: a flat string-keyed map. -/
def Store := PyStr → Option PyStr

/-- `st.session_state[k] = v`. -/
def storeSet (σ : Store) (k v : PyStr) : Store :=
  fun k2 => if k2 = k then some v else σ k2

/-- The session state at the start of a fresh session: no keys present. -/
def emptyStore : Store := fun _ => none

/-- `BaseExporter.__init__` (exporters.py line 16):
`self.key_prefix = f"{site_name.lower()[:2]}_"`. -/
def sitePfx (site_name : PyStr) : PyStr :=
  (site_name.map Char.toLower).take 2 ++ lit "_"

/-- The three marketplace key prefixes, one per exporter subclass. -/
def sitePfxs : List PyStr :=
  [sitePfx (lit "Shutterstock"), sitePfx (lit "AdobeStock"), sitePfx (lit "iStock")]

/-- Session key `f"{key_prefix}caption_{filename}"`. -/
def capKey (pfx filename : PyStr) : PyStr := pfx ++ lit "caption_" ++ filename

/-- Session key `f"{key_prefix}keywords_{filename}"`. -/
def kwKey (pfx filename : PyStr) : PyStr := pfx ++ lit "keywords_" ++ filename

/-! ### Batch-edit operations (`BaseExporter.draw_batch_controls`) -/

/-- The caption "Apply to All" button (exporters.py lines 35-43): when the
master text is non-blank, append it (stripped) to every image's caption. -/
def appendCaptionToAll (pfx : PyStr) (files : List PyStr)
    (global_caption : PyStr) (σ : Store) : Store :=
  if pyStrip global_caption ≠ [] then
    files.foldl (fun s f =>
      let key := capKey pfx f
      let original := (s key).getD []
      storeSet s key (pyStrip (original ++ lit " " ++ pyStrip global_caption))) σ
  else σ

/-- The per-file keyword update of the keyword "Apply to All" button
(exporters.py lines 56-59): split both strings on commas, strip, drop
empties, concatenate, deduplicate via `dict.fromkeys`, rejoin with `", "`. -/
def appendKeywordsValue (original_str global_keywords : PyStr) : PyStr :=
  joinCommaSpace (dedupFirst (cleanTokens original_str ++ cleanTokens global_keywords))

/-- The keyword "Apply to All" button (exporters.py lines 51-62). -/
def appendKeywordsToAll (pfx : PyStr) (files : List PyStr)
    (global_keywords : PyStr) (σ : Store) : Store :=
  if pyStrip global_keywords ≠ [] then
    files.foldl (fun s f =>
      let key := kwKey pfx f
      let original_str := (s key).getD []
      storeSet s key (appendKeywordsValue original_str global_keywords)) σ
  else σ

/-! ### Generate-if-absent (`draw_image_editors` loop body) -/

/-- The per-image body of `draw_image_editors` (exporters.py lines 135-145),
shared verbatim by all three exporter subclasses.  `gen` is the outcome of
`models.generate_caption` for the image with the given filename (`.error e`
when the try-block raises with message `e`); `extract` is the KeyBERT call
inside `refine_caption_and_keywords`.  The state is
(session store, list of `st.error` messages, service invocation count). -/
def ensure (gen : PyStr → Except PyStr PyStr) (extract : PyStr → List PyStr)
    (pfx : PyStr) (seeds : List PyStr)
    (st : Store × List PyStr × Nat) (f : PyStr) : Store × List PyStr × Nat :=
  let σ := st.1
  if (σ (capKey pfx f)).isSome then st
  else
    match gen f with
    | .ok raw =>
        let ck := refine_caption_and_keywords extract raw seeds
        (storeSet (storeSet σ (capKey pfx f) ck.1) (kwKey pfx f) ck.2,
         st.2.1, st.2.2 + 1)
    | .error e =>
        (storeSet (storeSet σ (capKey pfx f) (lit "Error")) (kwKey pfx f) (lit "Error"),
         st.2.1 ++ [lit "Error processing " ++ f ++ lit ": " ++ e], st.2.2 + 1)

/-- The `for uploaded_file in uploaded_files` loop of `draw_image_editors`
(exporters.py lines 122-145). -/
def draw_image_editors (gen : PyStr → Except PyStr PyStr)
    (extract : PyStr → List PyStr) (pfx : PyStr) (seeds : List PyStr)
    (files : List PyStr) (st : Store × List PyStr × Nat) :
    Store × List PyStr × Nat :=
  files.foldl (ensure gen extract pfx seeds) st

/-- The stored value a processed file ends up with: the refined pair on
success, the `"Error"` sentinel pair when generation raised. -/
def genOutcome (gen : PyStr → Except PyStr PyStr) (extract : PyStr → List PyStr)
    (seeds : List PyStr) (f : PyStr) : PyStr × PyStr :=
  match gen f with
  | .ok raw => refine_caption_and_keywords extract raw seeds
  | .error _ => (lit "Error", lit "Error")

/-- The `st.error` message produced for a file, if any. -/
def genErr (gen : PyStr → Except PyStr PyStr) (f : PyStr) : Option PyStr :=
  match gen f with
  | .ok _ => none
  | .error e => some (lit "Error processing " ++ f ++ lit ": " ++ e)

/-! ### Export serialisation -/

/-- `os.path.splitext(p)[0]` for a bare filename: cut at the last dot,
unless there is no dot or every character before that dot is a dot
(leading dots never start an extension). -/
def splitextRoot (s : PyStr) : PyStr :=
  match ((s.enum.filter (fun p => p.2 = '.')).map (fun p => p.1)).getLast? with
  | none => s
  | some i => if 0 < i ∧ ¬ (s.take i).all (fun c => c = '.') then s.take i else s

/-- `os.path.splitext(name)[0] + ".eps"` — the filename column rewrite used
by all three exporters (exporters.py lines 158, 264, 344). -/
def epsName (filename : PyStr) : PyStr := splitextRoot filename ++ lit ".eps"

/-- Shutterstock export configuration (exporters.py lines 106-111). -/
structure ShutterstockConfig where
  categories : List PyStr
  editorial : PyStr
  mature : PyStr
  illustration : PyStr

/-- One row of `ShutterstockExporter.draw_export_button`
(exporters.py lines 156-168). -/
def shutterstockRow (pfx : PyStr) (cfg : ShutterstockConfig) (σ : Store)
    (f : PyStr) : List PyStr :=
  [epsName f,
   pyStrip ((σ (capKey pfx f)).getD []),
   pyStrip ((σ (kwKey pfx f)).getD []),
   joinComma cfg.categories,
   cfg.editorial, cfg.mature, cfg.illustration]

/-- The `final_results` list built by `ShutterstockExporter.draw_export_button`. -/
def shutterstockRows (pfx : PyStr) (cfg : ShutterstockConfig) (files : List PyStr)
    (σ : Store) : List (List PyStr) :=
  files.map (shutterstockRow pfx cfg σ)

/-- `AdobeStockExporter.__init__` category list (exporters.py lines 186-191). -/
def adobeCategories : List PyStr :=
  [lit "Animals", lit "Buildings and Architecture", lit "Business", lit "Drinks",
   lit "The Environment", lit "States of Mind", lit "Food", lit "Graphic Resources",
   lit "Hobbies and Leisure", lit "Industry", lit "Landscapes", lit "Lifestyle",
   lit "People", lit "Plants and Flowers", lit "Culture and Religion", lit "Science",
   lit "Social Issues", lit "Sports", lit "Technology", lit "Transport", lit "Travel"]

/-- `self.category_map = {name: i + 1 for i, name in enumerate(...)}`
(exporters.py line 193), as an insertion-ordered association list. -/
def adobeCategoryMap : List (PyStr × Nat) :=
  adobeCategories.enum.map (fun p => (p.2, p.1 + 1))

/-- Python `dict` lookup on an insertion-ordered association list
(later insertions win). -/
def dictGet (m : List (PyStr × Nat)) (k : PyStr) : Option Nat :=
  (m.reverse.find? (fun e => e.1 = k)).map (fun e => e.2)

/-- `self.category_map.get(selected_category, "")` (exporters.py line 213);
`none` stands for the empty-string default (no selection / unknown name). -/
def adobeCategoryId (selected_category : Option PyStr) : Option Nat :=
  selected_category.bind (fun name => dictGet adobeCategoryMap name)

/-- Adobe Stock export configuration as built by
`AdobeStockExporter.draw_config_options` (exporters.py lines 211-215). -/
structure AdobeConfig where
  category_name : Option PyStr
  category_id : Option Nat
  releases : PyStr

/-- The config dict returned by `AdobeStockExporter.draw_config_options`. -/
def mkAdobeConfig (selected_category : Option PyStr) (releases : PyStr) :
    AdobeConfig :=
  ⟨selected_category, adobeCategoryId selected_category, releases⟩

/-- Decimal rendering of the numeric category code in the CSV. -/
def showNat (n : Nat) : PyStr := (toString n).data

/-- One row of `AdobeStockExporter.draw_export_button`
(exporters.py lines 262-272); the `Category` cell is empty when no
category id is present. -/
def adobeRow (pfx : PyStr) (cfg : AdobeConfig) (σ : Store) (f : PyStr) :
    List PyStr :=
  [epsName f,
   pyStrip ((σ (capKey pfx f)).getD []),
   pyStrip ((σ (kwKey pfx f)).getD []),
   (match cfg.category_id with | some n => showNat n | none => []),
   pyStrip cfg.releases]

/-- The `final_results` list built by `AdobeStockExporter.draw_export_button`. -/
def adobeRows (pfx : PyStr) (cfg : AdobeConfig) (files : List PyStr)
    (σ : Store) : List (List PyStr) :=
  files.map (adobeRow pfx cfg σ)

/-- Header of each per-image iStock CSV (exporters.py line 357). -/
def istockHeader : List PyStr :=
  [lit "file name", lit "description", lit "country", lit "title",
   lit "keywords", lit "color"]

/-- One per-image iStock CSV (exporters.py lines 336-360): the header row
plus a single data row duplicating the caption into description and title,
with empty country and literal `"yes"` color. -/
def istockCsv (pfx : PyStr) (σ : Store) (f : PyStr) : List (List PyStr) :=
  let caption := pyStrip ((σ (capKey pfx f)).getD [])
  let keywords := pyStrip ((σ (kwKey pfx f)).getD [])
  [istockHeader,
   [epsName f, caption, [], caption, keywords, lit "yes"]]

/-- The ZIP archive built by `IStockExporter.draw_export_button`
(exporters.py lines 329-366): one entry per uploaded file, named
`<basename>.csv`, containing that file's single-row CSV. -/
def istockZip (pfx : PyStr) (files : List PyStr) (σ : Store) :
    List (PyStr × List (List PyStr)) :=
  files.map (fun f => (splitextRoot f ++ lit ".csv", istockCsv pfx σ f))

/-- A 160-character raw caption used to exercise the truncation branch. -/
def longRaw : PyStr := List.replicate 160 'x'

/-! ### Helper lemmas -/

/-- Lists with distinct equal-length prefixes are distinct. -/
theorem append_ne_of_ne {p q : PyStr} (a b : PyStr)
    (hl : p.length = q.length) (hne : p ≠ q) : p ++ a ≠ q ++ b := by
  intro h
  apply hne
  have h1 := congrArg (List.take p.length) h
  rw [List.take_left] at h1
  rw [hl, List.take_left] at h1
  exact h1

/-- A caption session key never coincides with a keywords session key. -/
theorem tagKey_ne (f g : PyStr) : lit "caption_" ++ f ≠ lit "keywords_" ++ g := by
  intro h
  have h' : ('c' :: (lit "aption_" ++ f)) = ('k' :: (lit "eywords_" ++ g)) := h
  injection h' with h1 _
  exact absurd h1 (by decide)

theorem capKey_inj {p f g : PyStr} (h : capKey p f = capKey p g) : f = g := by
  unfold capKey at h
  rw [List.append_assoc, List.append_assoc] at h
  exact List.append_cancel_left (List.append_cancel_left h)

theorem kwKey_inj {p f g : PyStr} (h : kwKey p f = kwKey p g) : f = g := by
  unfold kwKey at h
  rw [List.append_assoc, List.append_assoc] at h
  exact List.append_cancel_left (List.append_cancel_left h)

theorem capKey_ne_kwKey {p q : PyStr} (f g : PyStr) (hl : p.length = q.length) :
    capKey p f ≠ kwKey q g := by
  unfold capKey kwKey
  rw [List.append_assoc, List.append_assoc]
  by_cases hpq : p = q
  · subst hpq
    intro h
    exact tagKey_ne f g (List.append_cancel_left h)
  · exact append_ne_of_ne _ _ hl hpq

theorem capKey_ne_capKey {p q : PyStr} (f g : PyStr) (hl : p.length = q.length)
    (hpq : p ≠ q) : capKey p f ≠ capKey q g := by
  unfold capKey
  rw [List.append_assoc, List.append_assoc]
  exact append_ne_of_ne _ _ hl hpq

theorem kwKey_ne_kwKey {p q : PyStr} (f g : PyStr) (hl : p.length = q.length)
    (hpq : p ≠ q) : kwKey p f ≠ kwKey q g := by
  unfold kwKey
  rw [List.append_assoc, List.append_assoc]
  exact append_ne_of_ne _ _ hl hpq

theorem storeSet_ne (σ : Store) {k k2 : PyStr} (v : PyStr) (h : k2 ≠ k) :
    storeSet σ k v k2 = σ k2 := by
  simp [storeSet, h]

theorem storeSet_same (σ : Store) (k v : PyStr) : storeSet σ k v k = some v := by
  simp [storeSet]

/-- `dedupFirst` produces a duplicate-free list. -/
theorem dedupFirst_nodup {α : Type} [DecidableEq α] (l : List α) :
    (dedupFirst l).Nodup := by
  induction l with
  | nil => simp [dedupFirst]
  | cons x xs ih =>
    rw [dedupFirst, List.nodup_cons]
    refine ⟨?_, List.Nodup.filter _ ih⟩
    intro hmem
    have := List.of_mem_filter hmem
    simp at this

/-- `dedupFirst` preserves the relative order of the kept elements. -/
theorem dedupFirst_sublist {α : Type} [DecidableEq α] (l : List α) :
    List.Sublist (dedupFirst l) l := by
  induction l with
  | nil => simp [dedupFirst]
  | cons x xs ih =>
    rw [dedupFirst]
    exact List.Sublist.cons₂ x ((List.filter_sublist _).trans ih)

/-- First-occurrence dedup of a concatenation: the left part deduplicated,
followed by the deduplicated right part minus everything in the left part. -/
theorem dedupFirst_append (l₁ l₂ : List PyStr) :
    dedupFirst (l₁ ++ l₂) =
      dedupFirst l₁ ++ (dedupFirst l₂).filter (fun y => y ∉ l₁) := by
  induction l₁ with
  | nil => simp [dedupFirst]
  | cons x xs ih =>
    rw [List.cons_append, dedupFirst, dedupFirst, ih, List.filter_append,
      List.filter_filter, List.cons_append]
    congr 1
    congr 1
    apply List.filter_congr
    intro a _
    simp [List.mem_cons, not_or, and_comm]

/-! ### C3 — caption truncation -/

/-- C3: for every raw caption string, the caption returned by
`refine_caption_and_keywords` has length at most 150; and whenever the
normalised form is longer than 150 characters, the result ends in `"..."`
and its first 147 characters are the first 147 characters of the
normalised form. -/
theorem caption_truncation (extract : PyStr → List PyStr) (s : PyStr)
    (seeds : List PyStr) :
    (refine_caption_and_keywords extract s seeds).1.length ≤ 150 ∧
    (150 < (normalizeCaption s).length →
      List.IsSuffix (lit "...") (refine_caption_and_keywords extract s seeds).1 ∧
      (refine_caption_and_keywords extract s seeds).1.take 147 =
        (normalizeCaption s).take 147) := by
  have h1 : (refine_caption_and_keywords extract s seeds).1 = clean_caption s := rfl
  rw [h1]
  unfold clean_caption
  by_cases h : 150 < (normalizeCaption s).length
  · rw [if_pos h]
    refine ⟨?_, fun _ => ⟨List.suffix_append _ _, ?_⟩⟩
    · have h3 : (lit "...").length = 3 := rfl
      simp only [List.length_append, List.length_take, h3]
      omega
    · have hlen : ((normalizeCaption s).take 147).length = 147 := by
        rw [List.length_take]
        omega
      rw [List.take_left' hlen]
  · rw [if_neg h]
    exact ⟨by omega, fun hc => absurd hc h⟩

/-- Witness for C3 at a 160-character raw caption. -/
theorem caption_truncation_witness :
    (refine_caption_and_keywords (fun _ => []) longRaw []).1.length ≤ 150 ∧
    List.IsSuffix (lit "...") (refine_caption_and_keywords (fun _ => []) longRaw []).1 ∧
    (refine_caption_and_keywords (fun _ => []) longRaw []).1.take 147 =
      (normalizeCaption longRaw).take 147 := by
  have h := caption_truncation (fun _ => []) longRaw []
  have hlen : 150 < (normalizeCaption longRaw).length := by decide
  exact ⟨h.1, (h.2 hlen).1, (h.2 hlen).2⟩

/-! ### C4 — caption normalisation -/

/-- C4 counterexample: the claim says normalisation leaves every character
after the first unchanged, but Python's `str.capitalize()` lower-cases the
rest of the string: on raw caption `"aB"` the code produces `"Ab"`, not the
claimed `"AB"`. -/
theorem caption_normalization_counterexample :
    (refine_caption_and_keywords (fun _ => []) (lit "aB") []).1 = lit "Ab" ∧
    normalizeCaptionSpec (lit "aB") = lit "AB" ∧
    (refine_caption_and_keywords (fun _ => []) (lit "aB") []).1 ≠
      normalizeCaptionSpec (lit "aB") := by
  decide

/-- C4 amended: `refine_caption_and_keywords` first trims surrounding
whitespace and then capitalises: the first character of the trimmed string
is upper-cased and every other character is lower-cased; below the
truncation threshold the returned caption is exactly that string. -/
theorem caption_normalization_amended (extract : PyStr → List PyStr)
    (s : PyStr) (seeds : List PyStr) (c : Char) (cs : List Char)
    (hstrip : pyStrip s = c :: cs)
    (hlen : (c.toUpper :: cs.map Char.toLower).length ≤ 150) :
    (refine_caption_and_keywords extract s seeds).1 =
      c.toUpper :: cs.map Char.toLower := by
  have h1 : (refine_caption_and_keywords extract s seeds).1 = clean_caption s := rfl
  rw [h1]
  unfold clean_caption normalizeCaption
  rw [hstrip]
  simp only [pyCapitalize]
  rw [if_neg (Nat.not_lt.mpr hlen)]

/-- Witness for the amended C4 at raw caption `" aB "`. -/
theorem caption_normalization_amended_witness :
    (refine_caption_and_keywords (fun _ => []) (lit " aB ") []).1 = lit "Ab" :=
  caption_normalization_amended (fun _ => []) (lit " aB ") [] 'a' ['B']
    (by decide) (by decide)

/-! ### C5 — keyword merge, dedup and order -/

/-- C5: the keyword string is the model-extracted keywords followed by the
trimmed non-blank seed tags, deduplicated by exact match keeping first
occurrences, joined with `", "`; the resulting token list is duplicate-free,
keeps first-occurrence order (it is a sublist of the concatenation), and
the surviving seed tags all come after the extracted keywords. -/
theorem keyword_merge_dedup_order (kws : List PyStr) (raw : PyStr)
    (seeds : List PyStr) :
    (refine_caption_and_keywords (fun _ => kws) raw seeds).2 =
      joinCommaSpace (dedupFirst (kws ++ seedsClean seeds)) ∧
    (dedupFirst (kws ++ seedsClean seeds)).Nodup ∧
    dedupFirst (kws ++ seedsClean seeds) =
      dedupFirst kws ++ (dedupFirst (seedsClean seeds)).filter (fun y => y ∉ kws) ∧
    List.Sublist (dedupFirst (kws ++ seedsClean seeds)) (kws ++ seedsClean seeds) :=
  ⟨rfl, dedupFirst_nodup _, dedupFirst_append _ _, dedupFirst_sublist _⟩

/-! ### C1 — generate-if-absent idempotence -/

/-- After any `ensure` call the caption key is populated. -/
theorem ensure_sets_capKey (gen : PyStr → Except PyStr PyStr)
    (extract : PyStr → List PyStr) (pfx : PyStr) (seeds : List PyStr)
    (st : Store × List PyStr × Nat) (f : PyStr) :
    ((ensure gen extract pfx seeds st f).1 (capKey pfx f)).isSome = true := by
  unfold ensure
  by_cases h : ((st.1) (capKey pfx f)).isSome = true
  · simp [h]
  · simp only [h, if_false, Bool.false_eq_true]
    cases hg : gen f with
    | ok raw =>
      by_cases hck : capKey pfx f = kwKey pfx f <;> simp [storeSet, hck]
    | error e =>
      by_cases hck : capKey pfx f = kwKey pfx f <;> simp [storeSet, hck]

/-- When the caption key is already populated, `ensure` changes nothing. -/
theorem ensure_noop (gen : PyStr → Except PyStr PyStr)
    (extract : PyStr → List PyStr) (pfx : PyStr) (seeds : List PyStr)
    (st : Store × List PyStr × Nat) (f : PyStr)
    (h : ((st.1) (capKey pfx f)).isSome = true) :
    ensure gen extract pfx seeds st f = st := by
  unfold ensure
  simp [h]

/-- C1: if a caption is already stored for the (marketplace, filename)
pair, `ensure` is a no-op on store, error log and service-call counter;
and running `ensure` twice with identical arguments equals running it
once — the expensive generation path never re-executes. -/
theorem ensure_idempotent (gen : PyStr → Except PyStr PyStr)
    (extract : PyStr → List PyStr) (pfx : PyStr) (seeds : List PyStr)
    (σ : Store) (errs : List PyStr) (cnt : Nat) (f : PyStr) :
    ((σ (capKey pfx f)).isSome = true →
      ensure gen extract pfx seeds (σ, errs, cnt) f = (σ, errs, cnt)) ∧
    ensure gen extract pfx seeds (ensure gen extract pfx seeds (σ, errs, cnt) f) f =
      ensure gen extract pfx seeds (σ, errs, cnt) f := by
  constructor
  · intro h
    exact ensure_noop gen extract pfx seeds (σ, errs, cnt) f h
  · exact ensure_noop gen extract pfx seeds _ f
      (ensure_sets_capKey gen extract pfx seeds (σ, errs, cnt) f)

/-- Witness for C1: a stored caption is preserved by `ensure`, and a double
`ensure` from the empty store equals a single one. -/
theorem ensure_idempotent_witness :
    ensure (fun _ => .ok (lit "a cat")) (fun _ => []) (sitePfx (lit "Shutterstock"))
        [] ((fun _ => some (lit "prior")), [], 0) (lit "cat.jpg") =
      ((fun _ => some (lit "prior")), [], 0) ∧
    ensure (fun _ => .ok (lit "a cat")) (fun _ => []) (sitePfx (lit "Shutterstock"))
        []
        (ensure (fun _ => .ok (lit "a cat")) (fun _ => [])
          (sitePfx (lit "Shutterstock")) [] (emptyStore, [], 0) (lit "cat.jpg"))
        (lit "cat.jpg") =
      ensure (fun _ => .ok (lit "a cat")) (fun _ => [])
        (sitePfx (lit "Shutterstock")) [] (emptyStore, [], 0) (lit "cat.jpg") := by
  constructor
  · exact (ensure_idempotent (fun _ => .ok (lit "a cat")) (fun _ => [])
      (sitePfx (lit "Shutterstock")) [] (fun _ => some (lit "prior")) [] 0
      (lit "cat.jpg")).1 rfl
  · exact (ensure_idempotent (fun _ => .ok (lit "a cat")) (fun _ => [])
      (sitePfx (lit "Shutterstock")) [] emptyStore [] 0 (lit "cat.jpg")).2

/-! ### C2 — marketplace isolation -/

/-- The caption batch-append only writes caption keys of its own prefix. -/
theorem appendCaptionToAll_frame (pfx : PyStr) (files : List PyStr)
    (text : PyStr) (σ : Store) (k : PyStr) (h : ∀ f, k ≠ capKey pfx f) :
    appendCaptionToAll pfx files text σ k = σ k := by
  unfold appendCaptionToAll
  by_cases ht : pyStrip text ≠ []
  · rw [if_pos ht]
    induction files generalizing σ with
    | nil => rfl
    | cons f fs ih =>
      rw [List.foldl_cons, ih]
      exact storeSet_ne σ _ (h f)
  · rw [if_neg ht]

/-- The keyword batch-append only writes keyword keys of its own prefix. -/
theorem appendKeywordsToAll_frame (pfx : PyStr) (files : List PyStr)
    (text : PyStr) (σ : Store) (k : PyStr) (h : ∀ f, k ≠ kwKey pfx f) :
    appendKeywordsToAll pfx files text σ k = σ k := by
  unfold appendKeywordsToAll
  by_cases ht : pyStrip text ≠ []
  · rw [if_pos ht]
    induction files generalizing σ with
    | nil => rfl
    | cons f fs ih =>
      rw [List.foldl_cons, ih]
      exact storeSet_ne σ _ (h f)
  · rw [if_neg ht]

/-- C2: the three exporters' key prefixes are pairwise distinct, and every
mutation under one prefix — a direct field edit, a caption batch-append or
a keyword batch-append — leaves both stored fields of every filename under
any other prefix unchanged. -/
theorem marketplace_isolation :
    (sitePfx (lit "Shutterstock") ≠ sitePfx (lit "AdobeStock") ∧
     sitePfx (lit "Shutterstock") ≠ sitePfx (lit "iStock") ∧
     sitePfx (lit "AdobeStock") ≠ sitePfx (lit "iStock")) ∧
    ∀ p q, p ∈ sitePfxs → q ∈ sitePfxs → p ≠ q →
      ∀ (σ : Store) (files : List PyStr) (text f g v : PyStr),
        storeSet σ (capKey p f) v (capKey q g) = σ (capKey q g) ∧
        storeSet σ (capKey p f) v (kwKey q g) = σ (kwKey q g) ∧
        storeSet σ (kwKey p f) v (capKey q g) = σ (capKey q g) ∧
        storeSet σ (kwKey p f) v (kwKey q g) = σ (kwKey q g) ∧
        appendCaptionToAll p files text σ (capKey q g) = σ (capKey q g) ∧
        appendCaptionToAll p files text σ (kwKey q g) = σ (kwKey q g) ∧
        appendKeywordsToAll p files text σ (capKey q g) = σ (capKey q g) ∧
        appendKeywordsToAll p files text σ (kwKey q g) = σ (kwKey q g) := by
  refine ⟨by decide, ?_⟩
  intro p q hp hq hpq σ files text f g v
  simp only [sitePfxs, List.mem_cons, List.not_mem_nil, or_false] at hp hq
  have hl : p.length = q.length := by
    rcases hp with rfl | rfl | rfl <;> rcases hq with rfl | rfl | rfl <;> decide
  refine ⟨storeSet_ne σ v (Ne.symm (capKey_ne_capKey f g hl hpq)),
    storeSet_ne σ v (Ne.symm (capKey_ne_kwKey f g hl)),
    storeSet_ne σ v (capKey_ne_kwKey g f hl.symm),
    storeSet_ne σ v (Ne.symm (kwKey_ne_kwKey f g hl hpq)),
    appendCaptionToAll_frame p files text σ _
      (fun f2 => capKey_ne_capKey g f2 hl.symm (Ne.symm hpq)),
    appendCaptionToAll_frame p files text σ _
      (fun f2 => Ne.symm (capKey_ne_kwKey f2 g hl)),
    appendKeywordsToAll_frame p files text σ _
      (fun f2 => capKey_ne_kwKey g f2 hl.symm),
    appendKeywordsToAll_frame p files text σ _
      (fun f2 => kwKey_ne_kwKey g f2 hl.symm (Ne.symm hpq))⟩

/-- Witness for C2: editing `cat.jpg` under the Shutterstock prefix leaves
the Adobe Stock record for `cat.jpg` untouched. -/
theorem marketplace_isolation_witness :
    storeSet (fun _ => none) (capKey (sitePfx (lit "Shutterstock")) (lit "cat.jpg"))
        (lit "edited") (capKey (sitePfx (lit "AdobeStock")) (lit "cat.jpg")) = none ∧
    appendCaptionToAll (sitePfx (lit "Shutterstock")) [lit "cat.jpg"] (lit "x")
        (fun _ => none) (capKey (sitePfx (lit "AdobeStock")) (lit "cat.jpg")) = none ∧
    appendKeywordsToAll (sitePfx (lit "Shutterstock")) [lit "cat.jpg"] (lit "x")
        (fun _ => none) (kwKey (sitePfx (lit "AdobeStock")) (lit "cat.jpg")) = none := by
  have h := (marketplace_isolation).2 (sitePfx (lit "Shutterstock"))
    (sitePfx (lit "AdobeStock")) (by decide) (by decide) (by decide)
    (fun _ => none) [lit "cat.jpg"] (lit "x") (lit "cat.jpg")
    (lit "cat.jpg") (lit "edited")
  exact ⟨h.1, h.2.2.2.2.1, h.2.2.2.2.2.2.1⟩

/-! ### C6 — keyword batch-append round trip -/

/-- Splitting skips over a comma-free chunk, accumulating it. -/
theorem splitCommaAux_append (a : PyStr) (h : ¬ ',' ∈ a) :
    ∀ (rest acc : PyStr),
      splitCommaAux (a ++ rest) acc = splitCommaAux rest (a.reverse ++ acc) := by
  induction a with
  | nil => intro rest acc; rfl
  | cons c cs ih =>
    intro rest acc
    have hc : ¬ (c = ',') := fun e => h (by simp [e])
    simp only [List.cons_append, splitCommaAux, if_neg hc, List.append_eq]
    rw [ih (fun hm => h (List.mem_cons_of_mem _ hm)) rest (c :: acc)]
    simp

/-- A comma-free string splits into itself. -/
theorem pySplitComma_no_comma (a : PyStr) (h : ¬ ',' ∈ a) :
    pySplitComma a = [a] := by
  have h2 := splitCommaAux_append a h [] []
  rw [List.append_nil] at h2
  unfold pySplitComma
  rw [h2]
  simp [splitCommaAux]

/-- Splitting off the first comma after a comma-free chunk. -/
theorem pySplitComma_append (a rest : PyStr) (h : ¬ ',' ∈ a) :
    pySplitComma (a ++ ',' :: rest) = a :: pySplitComma rest := by
  unfold pySplitComma
  rw [splitCommaAux_append a h (',' :: rest) []]
  simp [splitCommaAux]

/-- Leading whitespace is removed by `pyStrip`. -/
theorem pyStrip_prepend_spaces (sp t : PyStr) (h : ∀ c ∈ sp, pyIsSpace c) :
    pyStrip (sp ++ t) = pyStrip t := by
  unfold pyStrip
  rw [List.dropWhile_append_of_pos h]

/-- Splitting a `", "`-join recovers the tokens up to stripping, even with
leading whitespace in front of the first token. -/
theorem split_join_strip (ts : List PyStr) :
    ∀ (sp : PyStr), (∀ c ∈ sp, pyIsSpace c ∧ ¬ (c = ',')) →
      (∀ t ∈ ts, ¬ ',' ∈ t) → ts ≠ [] →
      (pySplitComma (sp ++ joinCommaSpace ts)).map pyStrip = ts.map pyStrip := by
  induction ts with
  | nil => intro sp _ _ hne; exact absurd rfl hne
  | cons t ts2 ih =>
    intro sp hsp hts _
    have hspt : ¬ ',' ∈ sp ++ t := by
      intro hm
      rcases List.mem_append.mp hm with hm1 | hm2
      · exact (hsp ',' hm1).2 rfl
      · exact hts t (List.mem_cons_self t ts2) hm2
    have hstrip : pyStrip (sp ++ t) = pyStrip t :=
      pyStrip_prepend_spaces sp t (fun c hc => (hsp c hc).1)
    cases ts2 with
    | nil =>
      rw [joinCommaSpace, pySplitComma_no_comma (sp ++ t) hspt]
      simp [hstrip]
    | cons u ts3 =>
      rw [joinCommaSpace]
      rw [show sp ++ (t ++ ',' :: ' ' :: joinCommaSpace (u :: ts3)) =
        (sp ++ t) ++ ',' :: (' ' :: joinCommaSpace (u :: ts3)) by simp]
      rw [pySplitComma_append (sp ++ t) _ hspt]
      have ihu := ih [' '] (by decide) (fun x hx => hts x (List.mem_cons_of_mem _ hx))
        (by simp)
      rw [List.map_cons, hstrip]
      rw [show (' ' :: joinCommaSpace (u :: ts3)) = [' '] ++ joinCommaSpace (u :: ts3)
        from rfl]
      rw [ihu]
      rfl

/-- Mapping `pyStrip` over already-stripped tokens changes nothing. -/
theorem map_pyStrip_id (ts : List PyStr) (h : ∀ t ∈ ts, pyStrip t = t) :
    ts.map pyStrip = ts := by
  induction ts with
  | nil => rfl
  | cons t ts2 ih =>
    rw [List.map_cons, h t (List.mem_cons_self t ts2),
      ih (fun x hx => h x (List.mem_cons_of_mem _ hx))]

/-- Splitting the output of a prior `", "`-join reproduces the token list,
for tokens that are non-empty, trimmed and comma-free. -/
theorem cleanTokens_join (ts : List PyStr)
    (h : ∀ t ∈ ts, t ≠ [] ∧ pyStrip t = t ∧ ¬ ',' ∈ t) :
    cleanTokens (joinCommaSpace ts) = ts := by
  cases ts with
  | nil => rfl
  | cons t ts2 =>
    unfold cleanTokens
    have hsplit := split_join_strip (t :: ts2) [] (by simp)
      (fun x hx => (h x hx).2.2) (by simp)
    rw [List.nil_append] at hsplit
    rw [hsplit, map_pyStrip_id _ (fun x hx => (h x hx).2.1)]
    rw [List.filter_eq_self.mpr]
    intro a ha
    simpa using (h a ha).1

/-- C6: the keyword batch-append splits on commas, trims, drops empties,
concatenates, deduplicates keeping first occurrences and rejoins with
`", "`; splitting the output of a prior join reproduces any token list of
non-empty, trimmed, comma-free tokens; and appending `"blue, green"` to
existing keywords `"red, blue"` yields exactly `"red, blue, green"`. -/
theorem keyword_batch_append_round_trip :
    (∀ (ts : List PyStr), (∀ t ∈ ts, t ≠ [] ∧ pyStrip t = t ∧ ¬ ',' ∈ t) →
      cleanTokens (joinCommaSpace ts) = ts) ∧
    appendKeywordsValue (lit "red, blue") (lit "blue, green") =
      lit "red, blue, green" :=
  ⟨cleanTokens_join, by decide⟩

/-- Witness for C6 at the concrete token list `["red", "blue"]`. -/
theorem keyword_batch_append_round_trip_witness :
    cleanTokens (joinCommaSpace [lit "red", lit "blue"]) = [lit "red", lit "blue"] ∧
    appendKeywordsValue (lit "red, blue") (lit "blue, green") =
      lit "red, blue, green" :=
  ⟨keyword_batch_append_round_trip.1 [lit "red", lit "blue"] (by decide),
   keyword_batch_append_round_trip.2⟩

/-! ### C7 — per-image failure isolation -/

/-- Effect of `ensure` on an absent record: both fields stored (refined pair
or the `"Error"` sentinel pair), the error message logged on failure, the
service invoked once. -/
theorem ensure_absent (gen : PyStr → Except PyStr PyStr)
    (extract : PyStr → List PyStr) (pfx : PyStr) (seeds : List PyStr)
    (σ : Store) (errs : List PyStr) (cnt : Nat) (f : PyStr)
    (h : σ (capKey pfx f) = none) :
    ensure gen extract pfx seeds (σ, errs, cnt) f =
      (storeSet (storeSet σ (capKey pfx f) (genOutcome gen extract seeds f).1)
        (kwKey pfx f) (genOutcome gen extract seeds f).2,
       errs ++ (genErr gen f).toList, cnt + 1) := by
  cases hg : gen f with
  | ok raw =>
    unfold genOutcome genErr
    simp [ensure, h, hg]
  | error e =>
    unfold genOutcome genErr
    simp [ensure, h, hg]

/-- Full characterisation of the `draw_image_editors` loop from a state in
which none of the (distinct) files has been generated yet: every file ends
up with its `genOutcome` pair, no other key changes, and the error log
grows by exactly the failing files' messages in order. -/
theorem draw_image_editors_spec (gen : PyStr → Except PyStr PyStr)
    (extract : PyStr → List PyStr) (pfx : PyStr) (seeds : List PyStr) :
    ∀ (files : List PyStr) (σ : Store) (errs : List PyStr) (cnt : Nat),
      files.Nodup → (∀ f ∈ files, σ (capKey pfx f) = none) →
      (∀ f ∈ files,
        (draw_image_editors gen extract pfx seeds files (σ, errs, cnt)).1
            (capKey pfx f) = some (genOutcome gen extract seeds f).1 ∧
        (draw_image_editors gen extract pfx seeds files (σ, errs, cnt)).1
            (kwKey pfx f) = some (genOutcome gen extract seeds f).2) ∧
      (∀ k, (∀ f ∈ files, ¬ (k = capKey pfx f) ∧ ¬ (k = kwKey pfx f)) →
        (draw_image_editors gen extract pfx seeds files (σ, errs, cnt)).1 k = σ k) ∧
      (draw_image_editors gen extract pfx seeds files (σ, errs, cnt)).2.1 =
        errs ++ files.filterMap (genErr gen) := by
  intro files
  induction files with
  | nil =>
    intro σ errs cnt _ _
    exact ⟨fun f hf => absurd hf (List.not_mem_nil f), fun k _ => rfl, by
      simp [draw_image_editors]⟩
  | cons f fs ih =>
    intro σ errs cnt hnd habs
    obtain ⟨hfnotin, hndfs⟩ := List.nodup_cons.mp hnd
    have hf_absent : σ (capKey pfx f) = none := habs f (List.mem_cons_self f fs)
    have hstep := ensure_absent gen extract pfx seeds σ errs cnt f hf_absent
    have hfold : draw_image_editors gen extract pfx seeds (f :: fs) (σ, errs, cnt) =
        draw_image_editors gen extract pfx seeds fs
          (ensure gen extract pfx seeds (σ, errs, cnt) f) := rfl
    rw [hfold, hstep]
    have habs2 : ∀ g ∈ fs,
        (storeSet (storeSet σ (capKey pfx f) (genOutcome gen extract seeds f).1)
          (kwKey pfx f) (genOutcome gen extract seeds f).2) (capKey pfx g) = none := by
      intro g hg
      have hgf : ¬ (capKey pfx g = capKey pfx f) := fun e => hfnotin (capKey_inj e ▸ hg)
      rw [storeSet_ne _ _ (capKey_ne_kwKey g f rfl), storeSet_ne _ _ hgf]
      exact habs g (List.mem_cons_of_mem f hg)
    obtain ⟨ih1, ih2, ih3⟩ := ih _ (errs ++ (genErr gen f).toList) (cnt + 1) hndfs habs2
    refine ⟨?_, ?_, ?_⟩
    · intro g hg
      rcases List.mem_cons.mp hg with hgf | hg2
      · rw [hgf]
        have hc1 : ∀ x ∈ fs, ¬ (capKey pfx f = capKey pfx x) ∧
            ¬ (capKey pfx f = kwKey pfx x) := by
          intro x hx
          refine ⟨fun e => hfnotin ?_, capKey_ne_kwKey f x rfl⟩
          rw [capKey_inj e]
          exact hx
        have hc2 : ∀ x ∈ fs, ¬ (kwKey pfx f = capKey pfx x) ∧
            ¬ (kwKey pfx f = kwKey pfx x) := by
          intro x hx
          refine ⟨Ne.symm (capKey_ne_kwKey x f rfl), fun e => hfnotin ?_⟩
          rw [kwKey_inj e]
          exact hx
        rw [ih2 (capKey pfx f) hc1, ih2 (kwKey pfx f) hc2]
        refine ⟨?_, storeSet_same _ _ _⟩
        rw [storeSet_ne _ _ (capKey_ne_kwKey f f rfl)]
        exact storeSet_same σ _ _
      · exact ih1 g hg2
    · intro k hk
      rw [ih2 k (fun x hx => hk x (List.mem_cons_of_mem f hx))]
      obtain ⟨hk1, hk2⟩ := hk f (List.mem_cons_self f fs)
      rw [storeSet_ne _ _ hk2, storeSet_ne _ _ hk1]
    · rw [ih3, List.filterMap_cons]
      cases hge : genErr gen f <;> simp [hge, List.append_assoc]

/-- Exactly one element of a duplicate-free list maps to `some`: the
`filterMap` is that single value. -/
theorem filterMap_single {α β : Type} (g : α → Option β) (l : List α)
    (b : α) (m : β) (hnd : l.Nodup) (hb : b ∈ l) (hgb : g b = some m)
    (hrest : ∀ x ∈ l, x ≠ b → g x = none) :
    l.filterMap g = [m] := by
  induction l with
  | nil => cases hb
  | cons x xs ih =>
    obtain ⟨hxnotin, hndxs⟩ := List.nodup_cons.mp hnd
    rcases List.mem_cons.mp hb with rfl | hb2
    · rw [List.filterMap_cons, hgb]
      have hnil : xs.filterMap g = [] := List.filterMap_eq_nil_iff.mpr
        (fun a ha => hrest a (List.mem_cons_of_mem _ ha)
          (fun e => hxnotin (e ▸ ha)))
      rw [hnil]
    · have hx : g x = none := hrest x (List.mem_cons_self x xs)
        (fun e => hxnotin (e.symm ▸ hb2))
      rw [List.filterMap_cons, hx]
      exact ih hndxs hb2 (fun a ha hne => hrest a (List.mem_cons_of_mem x ha) hne)

/-- C7: if generation raises for exactly one image `b` of a duplicate-free
batch, only that image's record carries the `"Error"` sentinel in both
fields, every other image gets its normally refined values, the single
error report is attributed to `b`, and the Shutterstock export still emits
one row per image, `b`'s row carrying `"Error"` as plain text. -/
theorem per_image_failure_isolation
    (gen : PyStr → Except PyStr PyStr) (extract : PyStr → List PyStr)
    (pfx : PyStr) (seeds : List PyStr) (files : List PyStr) (b msg : PyStr)
    (cfg : ShutterstockConfig)
    (hnd : files.Nodup) (hb : b ∈ files) (hgb : gen b = .error msg)
    (hok : ∀ f ∈ files, f ≠ b → (gen f).isOk = true) :
    ((draw_image_editors gen extract pfx seeds files (emptyStore, [], 0)).1
        (capKey pfx b) = some (lit "Error") ∧
     (draw_image_editors gen extract pfx seeds files (emptyStore, [], 0)).1
        (kwKey pfx b) = some (lit "Error")) ∧
    (∀ f ∈ files, f ≠ b → ∀ raw, gen f = .ok raw →
      (draw_image_editors gen extract pfx seeds files (emptyStore, [], 0)).1
          (capKey pfx f) = some (refine_caption_and_keywords extract raw seeds).1 ∧
      (draw_image_editors gen extract pfx seeds files (emptyStore, [], 0)).1
          (kwKey pfx f) = some (refine_caption_and_keywords extract raw seeds).2) ∧
    (draw_image_editors gen extract pfx seeds files (emptyStore, [], 0)).2.1 =
      [lit "Error processing " ++ b ++ lit ": " ++ msg] ∧
    (shutterstockRows pfx cfg files
      (draw_image_editors gen extract pfx seeds files (emptyStore, [], 0)).1).length =
      files.length ∧
    shutterstockRow pfx cfg
        (draw_image_editors gen extract pfx seeds files (emptyStore, [], 0)).1 b ∈
      shutterstockRows pfx cfg files
        (draw_image_editors gen extract pfx seeds files (emptyStore, [], 0)).1 ∧
    shutterstockRow pfx cfg
        (draw_image_editors gen extract pfx seeds files (emptyStore, [], 0)).1 b =
      [epsName b, lit "Error", lit "Error", joinComma cfg.categories,
       cfg.editorial, cfg.mature, cfg.illustration] := by
  obtain ⟨h1, _, h3⟩ := draw_image_editors_spec gen extract pfx seeds files
    emptyStore [] 0 hnd (fun _ _ => rfl)
  have houtb : genOutcome gen extract seeds b = (lit "Error", lit "Error") := by
    unfold genOutcome
    rw [hgb]
  have hcapb : (draw_image_editors gen extract pfx seeds files (emptyStore, [], 0)).1
      (capKey pfx b) = some (lit "Error") := by
    rw [(h1 b hb).1, houtb]
  have hkwb : (draw_image_editors gen extract pfx seeds files (emptyStore, [], 0)).1
      (kwKey pfx b) = some (lit "Error") := by
    rw [(h1 b hb).2, houtb]
  refine ⟨⟨hcapb, hkwb⟩, ?_, ?_, ?_, ?_, ?_⟩
  · intro f hf _ raw hraw
    have hout : genOutcome gen extract seeds f =
        refine_caption_and_keywords extract raw seeds := by
      unfold genOutcome
      rw [hraw]
    rw [(h1 f hf).1, (h1 f hf).2, hout]
    exact ⟨rfl, rfl⟩
  · rw [h3, List.nil_append]
    refine filterMap_single _ files b _ hnd hb ?_ ?_
    · unfold genErr
      rw [hgb]
    · intro x hx hne
      have hxok := hok x hx hne
      unfold genErr
      cases hgx : gen x with
      | ok _ => rfl
      | error e => rw [hgx] at hxok; cases hxok
  · exact List.length_map files _
  · exact List.mem_map_of_mem _ hb
  · unfold shutterstockRow
    rw [hcapb, hkwb]
    rfl

/-- Witness for C7: a three-image batch in which only the second image
fails generation. -/
theorem per_image_failure_isolation_witness :
    ((draw_image_editors
        (fun f => if f = lit "b.jpg" then .error (lit "boom") else .ok (lit "a cat"))
        (fun _ => []) (sitePfx (lit "Shutterstock")) []
        [lit "a.jpg", lit "b.jpg", lit "c.jpg"] (emptyStore, [], 0)).1
        (capKey (sitePfx (lit "Shutterstock")) (lit "b.jpg")) = some (lit "Error") ∧
     (draw_image_editors
        (fun f => if f = lit "b.jpg" then .error (lit "boom") else .ok (lit "a cat"))
        (fun _ => []) (sitePfx (lit "Shutterstock")) []
        [lit "a.jpg", lit "b.jpg", lit "c.jpg"] (emptyStore, [], 0)).1
        (kwKey (sitePfx (lit "Shutterstock")) (lit "b.jpg")) = some (lit "Error")) ∧
    (draw_image_editors
        (fun f => if f = lit "b.jpg" then .error (lit "boom") else .ok (lit "a cat"))
        (fun _ => []) (sitePfx (lit "Shutterstock")) []
        [lit "a.jpg", lit "b.jpg", lit "c.jpg"] (emptyStore, [], 0)).2.1 =
      [lit "Error processing " ++ lit "b.jpg" ++ lit ": " ++ lit "boom"] := by
  have h := per_image_failure_isolation
    (fun f => if f = lit "b.jpg" then .error (lit "boom") else .ok (lit "a cat"))
    (fun _ => []) (sitePfx (lit "Shutterstock")) []
    [lit "a.jpg", lit "b.jpg", lit "c.jpg"] (lit "b.jpg") (lit "boom")
    ⟨[], lit "no", lit "no", lit "no"⟩
    (by decide) (by decide) rfl (by decide)
  exact ⟨h.1, h.2.2.1⟩

/-! ### C8 — extension rewrite -/

/-- C8: in all three exporters the filename column of every exported row is
the uploaded file's base name with the extension replaced by `".eps"`; in
particular `"photo.png"` becomes `"photo.eps"`. -/
theorem extension_rewrite :
    (∀ (pfx : PyStr) (cfg : ShutterstockConfig) (files : List PyStr) (σ : Store),
      (shutterstockRows pfx cfg files σ).map (fun r => r.headD []) =
        files.map epsName) ∧
    (∀ (pfx : PyStr) (cfg : AdobeConfig) (files : List PyStr) (σ : Store),
      (adobeRows pfx cfg files σ).map (fun r => r.headD []) =
        files.map epsName) ∧
    (∀ (pfx : PyStr) (files : List PyStr) (σ : Store),
      (istockZip pfx files σ).map (fun e => (e.2.getD 1 []).headD []) =
        files.map epsName) ∧
    epsName (lit "photo.png") = lit "photo.eps" := by
  refine ⟨?_, ?_, ?_, by decide⟩
  · intro pfx cfg files σ
    unfold shutterstockRows
    rw [List.map_map]
    rfl
  · intro pfx cfg files σ
    unfold adobeRows
    rw [List.map_map]
    rfl
  · intro pfx files σ
    unfold istockZip
    rw [List.map_map]
    rfl

/-! ### C9 — Adobe Stock category mapping -/

/-- C9: the i-th name of Adobe's fixed 21-name category list maps to the
numeric code i+1 (1-indexed); with no selection the category id is absent,
the exported Category cell is empty, and a row is still produced for every
file. -/
theorem adobe_category_mapping :
    (∀ i, i < adobeCategories.length →
      adobeCategoryId (some (adobeCategories.getD i [])) = some (i + 1)) ∧
    adobeCategoryId none = none ∧
    (∀ (pfx releases : PyStr) (files : List PyStr) (σ : Store),
      (adobeRows pfx (mkAdobeConfig none releases) files σ).map
          (fun r => r.getD 3 []) = files.map (fun _ => []) ∧
      (adobeRows pfx (mkAdobeConfig none releases) files σ).length =
        files.length) := by
  refine ⟨by decide, rfl, ?_⟩
  intro pfx releases files σ
  constructor
  · unfold adobeRows
    rw [List.map_map]
    rfl
  · exact List.length_map _ _

/-- Witness for C9: the 5th Adobe category name (`"The Environment"`) maps
to code 5; no selection gives no code. -/
theorem adobe_category_mapping_witness :
    adobeCategoryId (some (adobeCategories.getD 4 [])) = some 5 ∧
    adobeCategoryId none = none :=
  ⟨adobe_category_mapping.1 4 (by decide), adobe_category_mapping.2.1⟩

/-! ### C10 — iStock archive shape -/

/-- C10: the iStock export produces one ZIP entry per uploaded image, named
`<basename>.csv`; each entry is a CSV with the six columns
file name/description/country/title/keywords/color in order and exactly one
data row, in which the caption is duplicated into description and title,
country is empty and color is the literal `"yes"`. -/
theorem istock_archive_shape (pfx : PyStr) (files : List PyStr) (σ : Store) :
    (istockZip pfx files σ).length = files.length ∧
    (istockZip pfx files σ).map (fun e => e.1) =
      files.map (fun f => splitextRoot f ++ lit ".csv") ∧
    ∀ e ∈ istockZip pfx files σ,
      e.2.length = 2 ∧
      e.2.headD [] = istockHeader ∧
      (e.2.getD 1 []).length = 6 ∧
      (e.2.getD 1 []).getD 1 [] = (e.2.getD 1 []).getD 3 [] ∧
      (e.2.getD 1 []).getD 2 [] = [] ∧
      (e.2.getD 1 []).getD 5 [] = lit "yes" := by
  refine ⟨List.length_map _ _, ?_, ?_⟩
  · unfold istockZip
    rw [List.map_map]
    rfl
  · intro e he
    obtain ⟨f, hf, rfl⟩ := List.mem_map.mp he
    exact ⟨rfl, rfl, rfl, rfl, rfl, rfl⟩

/-- Witness for C10: a three-image batch yields a three-entry archive whose
first entry carries the six-column header. -/
theorem istock_archive_shape_witness :
    (istockZip (sitePfx (lit "iStock")) [lit "a.jpg", lit "b.jpg", lit "c.jpg"]
      emptyStore).length = 3 ∧
    (istockCsv (sitePfx (lit "iStock")) emptyStore (lit "a.jpg")).headD [] =
      istockHeader := by
  have h := istock_archive_shape (sitePfx (lit "iStock"))
    [lit "a.jpg", lit "b.jpg", lit "c.jpg"] emptyStore
  have hmem : (splitextRoot (lit "a.jpg") ++ lit ".csv",
      istockCsv (sitePfx (lit "iStock")) emptyStore (lit "a.jpg")) ∈
        istockZip (sitePfx (lit "iStock"))
          [lit "a.jpg", lit "b.jpg", lit "c.jpg"] emptyStore := by
    exact List.mem_map_of_mem _ (by decide)
  exact ⟨h.1, (h.2.2 _ hmem).2.1⟩
